import Mathlib

/-!
Shallow embedding of the procedural terrain core of the repository
(`apps/web/src/gardens/utils/terrainUtils.ts` and the `calculateSlopes`
helper of the terrain component).

JavaScript numbers are idealized as rationals (`ℚ`); operations whose
results are irrational in general (`Math.pow` with fractional exponent,
`Math.sqrt`) are modelled over `ℝ`.  A JavaScript arithmetic step that
produces `NaN`/`Infinity` (division by zero, `Math.pow` of a zero base
with a negative exponent or of a negative base with a fractional
exponent) is modelled as `none` in an `Option`-valued result; `none`
propagates through subsequent arithmetic exactly as `NaN` does.
JavaScript's `%` operator (sign-following truncated remainder) is
`Int.tmod`; `x & 255` / `x & 15` on integers coincide with the
mathematical `Int.emod` by 256 / 16.
-/

/-- Model of `TerrainNoise.fade`: the quintic smoothing curve
`t * t * t * (t * (t * 6 - 15) + 10)`. -/
def fade (t : ℚ) : ℚ :=
  t * t * t * (t * (t * 6 - 15) + 10)

/-- Model of `TerrainNoise.lerp`: `a + t * (b - a)`. -/
def lerp (t a b : ℚ) : ℚ :=
  a + t * (b - a)

/-- Model of `TerrainNoise.grad`: 16-way hash-based pseudo-gradient dot product.
`hash & 15` is `hash % 16` (the Euclidean remainder); `(h & 1) === 0`
is `h % 2 = 0`; `(h & 2) === 0` is `h % 4 < 2`. -/
def grad (hash : ℤ) (x y : ℚ) : ℚ :=
  let h := hash % 16
  let u := if h < 8 then x else y
  let v := if h < 4 then y else if h = 12 ∨ h = 14 then x else 0
  (if h % 2 = 0 then u else -u) + (if h % 4 < 2 then v else -v)

/-- The value `Math.floor(x) & 255` of the query coordinate: the lattice cell
coordinate reduced modulo the 256-entry table, as a natural number. -/
def gridCoord (x : ℚ) : ℕ :=
  (Int.floor x % 256).toNat

/-- The first hashing lookup of `noise2D`:
`a = permutation[X] + Y`. -/
def permA (perm : List ℤ) (x y : ℚ) : ℤ :=
  perm.getD (gridCoord x) 0 + (gridCoord y : ℤ)

/-- The second hashing lookup of `noise2D`:
`b = permutation[X + 1] + Y`. -/
def permB (perm : List ℤ) (x y : ℚ) : ℤ :=
  perm.getD (gridCoord x + 1) 0 + (gridCoord y : ℤ)

/-- One of the corner-hash lookups `aa = permutation[a]`,
`ab = permutation[a + 1]`, `ba =
permutation[b]`, `bb = permutation[b + 1]`: the four corner hashes. -/
def cornerHash (perm : List ℤ) (c : ℤ) : ℤ :=
  perm.getD c.toNat 0

/-- Model of `TerrainNoise.noise2D`: 2D gradient noise over a (doubled)
permutation table.  Table reads `this.permutation[i]` are modelled with
`List.getD _ 0`; `x -= Math.floor(x)` is the fractional offset
`x - ⌊x⌋`. -/
def noise2D (perm : List ℤ) (x y : ℚ) : ℚ :=
  lerp (fade (y - Int.floor y))
    (lerp (fade (x - Int.floor x))
      (grad (cornerHash perm (cornerHash perm (permA perm x y)))
        (x - Int.floor x) (y - Int.floor y))
      (grad (cornerHash perm (cornerHash perm (permB perm x y)))
        (x - Int.floor x - 1) (y - Int.floor y)))
    (lerp (fade (x - Int.floor x))
      (grad (cornerHash perm (cornerHash perm (permA perm x y + 1)))
        (x - Int.floor x) (y - Int.floor y - 1))
      (grad (cornerHash perm (cornerHash perm (permB perm x y + 1)))
        (x - Int.floor x - 1) (y - Int.floor y - 1)))

/-- One step of `TerrainNoise.seededRandom`:
`seed = (seed * 9301 + 49297) % 233280` with JavaScript's `%`. -/
def lcg (s : ℤ) : ℤ :=
  Int.tmod (s * 9301 + 49297) 233280

/-- The draw `Math.floor(random() * (i + 1))`: the Fisher-Yates index computed
from the updated LCG state `s` (the value `random()` returned is
`s / 233280`). -/
def drawJ (s : ℤ) (i : ℕ) : ℤ :=
  Int.floor ((s : ℚ) / 233280 * ((i : ℚ) + 1))

/-- The loop indices `i = 255, 254, ..., 1` of the constructor's
shuffle loop. -/
def downIdx : List ℕ :=
  (List.range 255).map (fun k => 255 - k)

/-- One iteration of the constructor's shuffle loop: update the LCG
state, draw `j`, and swap `permutation[i]` with `permutation[j]`
(both reads happen before either write, as in the destructuring
assignment). -/
def shuffleStep (st : List ℤ × ℤ) (i : ℕ) : List ℤ × ℤ :=
  let s := lcg st.2
  let j := (drawJ s i).toNat
  let p := st.1
  ((p.set i (p.getD j 0)).set j (p.getD i 0), s)

/-- The permutation table after the seeded shuffle (length 256). -/
def permShuffle (seed : ℤ) : List ℤ :=
  (downIdx.foldl shuffleStep ((List.range 256).map (fun i : ℕ => (i : ℤ)), seed)).1

/-- Model of the `TerrainNoise` constructor: identity table, seeded shuffle, then
duplication to length 512 for wraparound lookups. -/
def permTable (seed : ℤ) : List ℤ :=
  permShuffle seed ++ permShuffle seed

/-- The identity table doubled, i.e. what the constructor would produce
if the shuffle had no effect. -/
def identityTableDoubled : List ℤ :=
  (List.range 256).map (fun i : ℕ => (i : ℤ)) ++ (List.range 256).map (fun i : ℕ => (i : ℤ))

/-- The sequence of `(i, j)` index pairs used by the constructor's
seeded shuffle, in loop order (`j` as the signed integer JavaScript
computes, before any array access). -/
def shuffleIndices (seed : ℤ) : List (ℕ × ℤ) :=
  (downIdx.foldl
    (fun (st : List (ℕ × ℤ) × ℤ) i =>
      let s := lcg st.2
      (st.1 ++ [(i, drawJ s i)], s))
    ([], seed)).1

/-- The in-bounds property of the shuffle, as the spec asserts it for
every seed: each drawn index `j` satisfies `0 ≤ j ≤ i`. -/
def shuffleIndicesInBounds (seed : ℤ) : Prop :=
  ∀ p ∈ shuffleIndices seed, 0 ≤ p.2 ∧ p.2 ≤ (p.1 : ℤ)

instance : DecidablePred shuffleIndicesInBounds := by
  intro seed
  unfold shuffleIndicesInBounds
  infer_instance

/-- The options record of `generateHeightmap`. -/
structure HeightmapOptions where
  seed : ℤ
  scale : ℚ
  octaves : ℕ
  persistence : ℚ
  lacunarity : ℚ
  amplitude : ℚ
  redistribution : ℚ

/-- The defaulted options: seed 42, scale 0.1, octaves 4,
persistence 0.5, lacunarity 2.0, amplitude 0.5, redistribution 1.2. -/
def defaultOptions : HeightmapOptions :=
  ⟨42, 1/10, 4, 1/2, 2, 1/2, 6/5⟩

/-- JavaScript division: division by zero yields a non-finite number
(`NaN` or `±Infinity`), modelled as `none`. -/
def jsDiv (a b : ℚ) : Option ℚ :=
  if b = 0 then none else some (a / b)

/-- One iteration of the octave loop of `generateHeightmap` for cell
`(x, y)`.  State: `(noiseValue, amplitudeSum, currentAmplitude,
currentFrequency)`. -/
def octStep (perm : List ℤ) (x y : ℕ) (persistence lacunarity : ℚ)
    (st : ℚ × ℚ × ℚ × ℚ) : ℚ × ℚ × ℚ × ℚ :=
  (st.1 + noise2D perm ((x : ℚ) * st.2.2.2) ((y : ℚ) * st.2.2.2) * st.2.2.1,
   st.2.1 + st.2.2.1,
   st.2.2.1 * persistence,
   st.2.2.2 * lacunarity)

/-- The accumulated (pre-normalization) value of cell `(x, y)`:
run all octaves from `(0, 0, 1, scale)`, then
`noiseValue /= amplitudeSum`. -/
def rawCell (perm : List ℤ) (x y : ℕ) (o : HeightmapOptions) : Option ℚ :=
  let st := (octStep perm x y o.persistence o.lacunarity)^[o.octaves] (0, 0, 1, o.scale)
  jsDiv st.1 st.2.1

/-- The full accumulation pass of `generateHeightmap`, row-major
(`index = y * width + x`). -/
def rawGrid (width height : ℕ) (o : HeightmapOptions) : List (Option ℚ) :=
  (List.range height).flatMap fun y =>
    (List.range width).map fun x => rawCell (permTable o.seed) x y o

/-- Model of `Math.max` on possibly-`NaN` values: `NaN` absorbs. -/
def jsMaxO (a b : Option ℚ) : Option ℚ :=
  match a, b with
  | some x, some y => some (max x y)
  | _, _ => none

/-- Model of `Math.min` on possibly-`NaN` values: `NaN` absorbs. -/
def jsMinO (a b : Option ℚ) : Option ℚ :=
  match a, b with
  | some x, some y => some (min x y)
  | _, _ => none

/-- The observed `maxHeight`: running maximum over the grid, starting from the
initial value `0` of `generateHeightmap`. -/
def gridMax (grid : List (Option ℚ)) : Option ℚ :=
  grid.foldl jsMaxO (some 0)

/-- The observed `minHeight`: running minimum over the grid, starting from the
initial value `0` of `generateHeightmap`. -/
def gridMin (grid : List (Option ℚ)) : Option ℚ :=
  grid.foldl jsMinO (some 0)

open Classical in
/-- Model of `Math.pow`: non-finite (`none`) for a zero base with negative
exponent and for a negative base with non-integer exponent; otherwise
the real power. -/
noncomputable def jsPow (x r : ℝ) : Option ℝ :=
  if x = 0 ∧ r < 0 then none
  else if x < 0 ∧ ∀ n : ℤ, r ≠ (n : ℝ) then none
  else some (x ^ r)

/-- The normalization step of `generateHeightmap` on one cell:
`normalized = (v - minHeight) / (maxHeight - minHeight)`, then
`Math.pow(normalized, redistribution)`, then `* amplitude`. -/
noncomputable def normalizeCell (v mn mx : Option ℚ) (redistribution amplitude : ℚ) :
    Option ℝ :=
  match v, mn, mx with
  | some q, some a, some b =>
    (jsDiv (q - a) (b - a)).bind fun n =>
      (jsPow (n : ℝ) (redistribution : ℝ)).map fun p => p * (amplitude : ℝ)
  | _, _, _ => none

/-- Model of `generateHeightmap`: octave accumulation, observed min/max, then
per-cell normalization, redistribution and amplitude scaling. -/
noncomputable def generateHeightmap (width height : ℕ) (o : HeightmapOptions) :
    List (Option ℝ) :=
  let grid := rawGrid width height o
  grid.map fun v => normalizeCell v (gridMin grid) (gridMax grid) o.redistribution o.amplitude

/-- The result guarantee the spec states for `generateHeightmap`:
every entry is a finite number in `[0, amplitude]`. -/
def bufferFiniteInRange (buf : List (Option ℝ)) (amplitude : ℝ) : Prop :=
  ∀ v ∈ buf, ∃ q : ℝ, v = some q ∧ 0 ≤ q ∧ q ≤ amplitude

/-- Model of `sampleHeight`: world position to fractional grid coordinates,
clamp, then bilinear interpolation of the four nearest cells. -/
def sampleHeight (heightmap : List ℚ) (width height : ℕ) (x z terrainSize : ℚ) : ℚ :=
  let halfSize := terrainSize / 2
  let u := (x + halfSize) / terrainSize * ((width : ℚ) - 1)
  let v := (z + halfSize) / terrainSize * ((height : ℚ) - 1)
  let clampedU := max 0 (min ((width : ℚ) - 1) u)
  let clampedV := max 0 (min ((height : ℚ) - 1) v)
  let x0 := Int.floor clampedU
  let y0 := Int.floor clampedV
  let x1 := min (x0 + 1) ((width : ℤ) - 1)
  let y1 := min (y0 + 1) ((height : ℤ) - 1)
  let fx := clampedU - (x0 : ℚ)
  let fy := clampedV - (y0 : ℚ)
  let h00 := heightmap.getD (y0 * (width : ℤ) + x0).toNat 0
  let h10 := heightmap.getD (y0 * (width : ℤ) + x1).toNat 0
  let h01 := heightmap.getD (y1 * (width : ℤ) + x0).toNat 0
  let h11 := heightmap.getD (y1 * (width : ℤ) + x1).toNat 0
  let h0 := h00 * (1 - fx) + h10 * fx
  let h1 := h01 * (1 - fx) + h11 * fx
  h0 * (1 - fy) + h1 * fy

/-- The quantity `distFromEdge` of `applyEdgeFalloff`: `0` at the border, `1` at the
center, from normalized per-axis coordinates in `[-1, 1]`. -/
def distFromEdge (width height x y : ℕ) : ℚ :=
  let nx := (x : ℚ) / ((width : ℚ) - 1) * 2 - 1
  let ny := (y : ℚ) / ((height : ℚ) - 1) * 2 - 1
  1 - max |nx| |ny|

/-- The falloff multiplier of `applyEdgeFalloff`: smoothstep
`t * t * (3 - 2 * t)` of `t = distFromEdge / falloffDistance` inside
the falloff band, `1` elsewhere. -/
def falloffMultiplier (width height x y : ℕ) (falloffDistance : ℚ) : ℚ :=
  if distFromEdge width height x y < falloffDistance then
    let t := distFromEdge width height x y / falloffDistance
    t * t * (3 - 2 * t)
  else 1

/-- Model of `applyEdgeFalloff`: copy the heightmap, then multiply every cell in
place by its falloff multiplier (the copy is the fold's start value;
`result[index] *= m` is `List.set` at `index`). -/
def applyEdgeFalloff (heightmap : List ℚ) (width height : ℕ) (falloffDistance : ℚ) :
    List ℚ :=
  (List.range height).foldl
    (fun result y =>
      (List.range width).foldl
        (fun result x =>
          result.set (y * width + x)
            (result.getD (y * width + x) 0 *
              falloffMultiplier width height x y falloffDistance))
        result)
    heightmap

/-- A buffer store: allocation ids are list positions.  Models which
`Float32Array` each write of `applyEdgeFalloff` lands in. -/
def storeGet (store : List (List ℚ)) (p : ℕ) : List ℚ :=
  store.getD p []

/-- Write one cell of buffer `p` in the store. -/
def storeSetCell (store : List (List ℚ)) (p idx : ℕ) (v : ℚ) : List (List ℚ) :=
  store.set p ((storeGet store p).set idx v)

/-- Model of `applyEdgeFalloff` against the buffer store: allocate a fresh
buffer holding a copy of the input (`new Float32Array(heightmap)`),
run the cell loop writing only to the fresh buffer, and return the
final store with the fresh buffer's id. -/
def applyEdgeFalloffStore (store : List (List ℚ)) (p : ℕ) (width height : ℕ)
    (falloffDistance : ℚ) : List (List ℚ) × ℕ :=
  let r := store.length
  let allocated := store ++ [storeGet store p]
  ((List.range height).foldl
    (fun s y =>
      (List.range width).foldl
        (fun s x =>
          storeSetCell s r (y * width + x)
            ((storeGet s r).getD (y * width + x) 0 *
              falloffMultiplier width height x y falloffDistance))
        s)
    allocated, r)

/-- Validity of one 256-entry permutation table: full length and all
entries in `0..255`. -/
def permEntriesOk (p : List ℤ) : Prop :=
  p.length = 256 ∧ ∀ e ∈ p, 0 ≤ e ∧ e < 256

/-- All table indices `noise2D` reads — `X`, `X + 1`, `a`, `a + 1`,
`b`, `b + 1`, `aa`, `ab`, `ba`, `bb` — are nonnegative and within the
(doubled) table's bounds. -/
def noise2DLookupsInBounds (perm : List ℤ) (x y : ℚ) : Prop :=
  gridCoord x + 1 < perm.length ∧ gridCoord y < perm.length ∧
  0 ≤ permA perm x y ∧ (permA perm x y).toNat + 1 < perm.length ∧
  0 ≤ permB perm x y ∧ (permB perm x y).toNat + 1 < perm.length ∧
  (cornerHash perm (permA perm x y)).toNat < perm.length ∧
  (cornerHash perm (permA perm x y + 1)).toNat < perm.length ∧
  (cornerHash perm (permB perm x y)).toNat < perm.length ∧
  (cornerHash perm (permB perm x y + 1)).toNat < perm.length

/-- Model of `calculateSlopes`: forward differences to the +X/+Y neighbors
(border cells reuse their own height), gradient magnitude, then
`Math.min(1, slope * 0.5)`. -/
noncomputable def calculateSlopes (heightmap : List ℚ) (width height : ℕ)
    (terrainSize : ℚ) : List ℝ :=
  let cellSize := terrainSize / (width : ℚ)
  (List.range height).flatMap fun y =>
    (List.range width).map fun x =>
      let index := y * width + x
      let hc := heightmap.getD index 0
      let hx := if x < width - 1 then heightmap.getD (y * width + (x + 1)) 0 else hc
      let hy := if y < height - 1 then heightmap.getD ((y + 1) * width + x) 0 else hc
      let dx := (hx - hc) / cellSize
      let dy := (hy - hc) / cellSize
      min 1 (Real.sqrt ((dx : ℝ) * (dx : ℝ) + (dy : ℝ) * (dy : ℝ)) * (1/2))

/-- The `(x, y)` cell visit order of the falloff loop: `y` outer,
`x` inner. -/
def cellPairs (width height : ℕ) : List (ℕ × ℕ) :=
  (List.range height).flatMap fun y => (List.range width).map fun x => (x, y)

/-! ### Bounds for the noise primitives -/

theorem fade_nonneg {t : ℚ} (h0 : 0 ≤ t) (_h1 : t ≤ 1) : 0 ≤ fade t := by
  have h2 : (0:ℚ) ≤ t * (t * 6 - 15) + 10 := by nlinarith [sq_nonneg (t - 5/4)]
  have h3 : (0:ℚ) ≤ t * t * t := by positivity
  unfold fade
  exact mul_nonneg h3 h2

theorem fade_plus_fade_rev (t : ℚ) : fade t + fade (1 - t) = 1 := by
  unfold fade; ring

theorem fade_le_one {t : ℚ} (h0 : 0 ≤ t) (h1 : t ≤ 1) : fade t ≤ 1 := by
  have := fade_nonneg (t := 1 - t) (by linarith) (by linarith)
  have h2 := fade_plus_fade_rev t
  linarith

theorem shifted_le_half {t : ℚ} (h0 : 0 ≤ t) (h1 : t ≤ 1) :
    t + fade t * (1 - 2 * t) ≤ 1 / 2 := by
  have hr : 0 ≤ 6 * t ^ 4 - 12 * t ^ 3 + 4 * t ^ 2 + 2 * t + 1 := by
    nlinarith [sq_nonneg (t * (t - 1)), mul_nonneg h0 (sub_nonneg.2 h1)]
  have key : t + fade t * (1 - 2 * t) - 1 / 2 =
      -2 * ((t - 1 / 2) ^ 2 * (6 * t ^ 4 - 12 * t ^ 3 + 4 * t ^ 2 + 2 * t + 1)) := by
    unfold fade; ring
  nlinarith [mul_nonneg (sq_nonneg (t - 1 / 2)) hr]

theorem grad_abs_le (hash : ℤ) (x y : ℚ) : |grad hash x y| ≤ |x| + |y| := by
  unfold grad
  dsimp only
  split_ifs <;>
    first
    | (exfalso; omega)
    | (rw [abs_le]; constructor <;>
        nlinarith [le_abs_self x, neg_abs_le x, le_abs_self y, neg_abs_le y,
          abs_nonneg x, abs_nonneg y])

theorem lerp_abs_le {t a b A B : ℚ} (ht0 : 0 ≤ t) (ht1 : t ≤ 1)
    (ha : |a| ≤ A) (hb : |b| ≤ B) : |lerp t a b| ≤ (1 - t) * A + t * B := by
  rw [abs_le] at ha hb
  have k1 : 0 ≤ (1 - t) * (A - a) := mul_nonneg (by linarith) (by linarith)
  have k2 : 0 ≤ t * (B - b) := mul_nonneg ht0 (by linarith)
  have k3 : 0 ≤ (1 - t) * (A + a) := mul_nonneg (by linarith) (by linarith)
  have k4 : 0 ≤ t * (B + b) := mul_nonneg ht0 (by linarith)
  unfold lerp
  rw [abs_le]
  constructor <;> nlinarith [k1, k2, k3, k4]

/-- The `[-1, 1]` bound on `noise2D` holds for an arbitrary table: the
corner gradients are bounded corner-wise by the taxicab distance to the
corner, and the faded bilinear blend of those bounds never exceeds 1. -/
theorem noise2D_abs_le_one (perm : List ℤ) (x y : ℚ) : |noise2D perm x y| ≤ 1 := by
  have hx0 : (0:ℚ) ≤ x - (Int.floor x : ℚ) := sub_nonneg.2 (Int.floor_le x)
  have hx1 : x - (Int.floor x : ℚ) ≤ 1 := by
    have := Int.lt_floor_add_one x
    linarith
  have hy0 : (0:ℚ) ≤ y - (Int.floor y : ℚ) := sub_nonneg.2 (Int.floor_le y)
  have hy1 : y - (Int.floor y : ℚ) ≤ 1 := by
    have := Int.lt_floor_add_one y
    linarith
  unfold noise2D
  generalize cornerHash perm (cornerHash perm (permA perm x y)) = c1
  generalize cornerHash perm (cornerHash perm (permB perm x y)) = c2
  generalize cornerHash perm (cornerHash perm (permA perm x y + 1)) = c3
  generalize cornerHash perm (cornerHash perm (permB perm x y + 1)) = c4
  set xf := x - (Int.floor x : ℚ) with hxf
  set yf := y - (Int.floor y : ℚ) with hyf
  have hu0 := fade_nonneg hx0 hx1
  have hu1 := fade_le_one hx0 hx1
  have hv0 := fade_nonneg hy0 hy1
  have hv1 := fade_le_one hy0 hy1
  have ex : |xf - 1| = 1 - xf := by
    rw [abs_of_nonpos (by linarith)]; ring
  have ey : |yf - 1| = 1 - yf := by
    rw [abs_of_nonpos (by linarith)]; ring
  have g1 : |grad c1 xf yf| ≤ xf + yf := by
    have h := grad_abs_le c1 xf yf
    rwa [abs_of_nonneg hx0, abs_of_nonneg hy0] at h
  have g2 : |grad c2 (xf - 1) yf| ≤ (1 - xf) + yf := by
    have h := grad_abs_le c2 (xf - 1) yf
    rwa [ex, abs_of_nonneg hy0] at h
  have g3 : |grad c3 xf (yf - 1)| ≤ xf + (1 - yf) := by
    have h := grad_abs_le c3 xf (yf - 1)
    rwa [abs_of_nonneg hx0, ey] at h
  have g4 : |grad c4 (xf - 1) (yf - 1)| ≤ (1 - xf) + (1 - yf) := by
    have h := grad_abs_le c4 (xf - 1) (yf - 1)
    rwa [ex, ey] at h
  have L1 := lerp_abs_le hu0 hu1 g1 g2
  have L2 := lerp_abs_le hu0 hu1 g3 g4
  have L := lerp_abs_le hv0 hv1 L1 L2
  have hP := shifted_le_half hx0 hx1
  have hQ := shifted_le_half hy0 hy1
  calc |lerp (fade yf) (lerp (fade xf) (grad c1 xf yf) (grad c2 (xf - 1) yf))
        (lerp (fade xf) (grad c3 xf (yf - 1)) (grad c4 (xf - 1) (yf - 1)))|
      ≤ (1 - fade yf) * ((1 - fade xf) * (xf + yf) + fade xf * ((1 - xf) + yf)) +
        fade yf * ((1 - fade xf) * (xf + (1 - yf)) + fade xf * ((1 - xf) + (1 - yf))) := L
    _ = (xf + fade xf * (1 - 2 * xf)) + (yf + fade yf * (1 - 2 * yf)) := by ring
    _ ≤ 1 / 2 + 1 / 2 := add_le_add hP hQ
    _ = 1 := by norm_num

/-- C4: for every integer seed and all coordinates `(x, y)`, `noise2D`
(the spec's `sample2D`) of a `TerrainNoise` constructed from that seed
returns a value in the closed interval `[-1, 1]`. -/
theorem noise2D_range (seed : ℤ) (x y : ℚ) :
    -1 ≤ noise2D (permTable seed) x y ∧ noise2D (permTable seed) x y ≤ 1 := by
  have h := noise2D_abs_le_one (permTable seed) x y
  rw [abs_le] at h
  exact h

theorem noise2D_shift_x (perm : List ℤ) (x y : ℚ) :
    noise2D perm (x + 256) y = noise2D perm x y := by
  have h1 : Int.floor (x + (256:ℚ)) = Int.floor x + 256 := by
    exact_mod_cast Int.floor_add_int x (256:ℤ)
  have h2 : (Int.floor x + 256) % 256 = Int.floor x % 256 := by omega
  unfold noise2D permA permB gridCoord
  rw [h1, h2]
  push_cast
  ring_nf

theorem noise2D_shift_y (perm : List ℤ) (x y : ℚ) :
    noise2D perm x (y + 256) = noise2D perm x y := by
  have h1 : Int.floor (y + (256:ℚ)) = Int.floor y + 256 := by
    exact_mod_cast Int.floor_add_int y (256:ℤ)
  have h2 : (Int.floor y + 256) % 256 = Int.floor y % 256 := by omega
  unfold noise2D permA permB gridCoord
  rw [h1, h2]
  push_cast
  ring_nf

/-- C5: for every integer seed and all `(x, y)`, `noise2D` is periodic
with period 256 in each axis. -/
theorem noise2D_periodic (seed : ℤ) (x y : ℚ) :
    noise2D (permTable seed) (x + 256) y = noise2D (permTable seed) x y ∧
    noise2D (permTable seed) x (y + 256) = noise2D (permTable seed) x y :=
  ⟨noise2D_shift_x (permTable seed) x y, noise2D_shift_y (permTable seed) x y⟩

theorem lcg_nonneg {s : ℤ} (h : 0 ≤ s) : 0 ≤ lcg s := by
  unfold lcg
  exact Int.tmod_nonneg 233280 (by linarith)

theorem lcg_lt {s : ℤ} (_h : 0 ≤ s) : lcg s < 233280 := by
  unfold lcg
  exact Int.tmod_lt_of_pos _ (by norm_num)

theorem drawJ_nonneg {s : ℤ} (i : ℕ) (h0 : 0 ≤ s) : 0 ≤ drawJ s i := by
  unfold drawJ
  apply Int.floor_nonneg.2
  have hs : (0:ℚ) ≤ (s : ℚ) := by exact_mod_cast h0
  positivity

theorem drawJ_le {s : ℤ} (i : ℕ) (h0 : 0 ≤ s) (h1 : s < 233280) :
    drawJ s i ≤ (i : ℤ) := by
  unfold drawJ
  have hfrac : (s : ℚ) / 233280 < 1 := by
    rw [div_lt_one (by norm_num)]
    exact_mod_cast h1
  have hfrac0 : (0:ℚ) ≤ (s : ℚ) / 233280 := by
    have hs : (0:ℚ) ≤ (s : ℚ) := by exact_mod_cast h0
    positivity
  have hlt : (s : ℚ) / 233280 * ((i : ℚ) + 1) < ((i : ℤ) + 1 : ℤ) := by
    push_cast
    nlinarith [mul_lt_mul_of_pos_right hfrac (show (0:ℚ) < (i : ℚ) + 1 by positivity)]
  have := Int.floor_lt.2 hlt
  omega

theorem shuffleIndices_fold_bounds (l : List ℕ) :
    ∀ (acc : List (ℕ × ℤ)) (s : ℤ), 0 ≤ s →
      (∀ p ∈ acc, 0 ≤ p.2 ∧ p.2 ≤ (p.1 : ℤ)) →
      ∀ p ∈ (l.foldl (fun (st : List (ℕ × ℤ) × ℤ) i =>
          (st.1 ++ [(i, drawJ (lcg st.2) i)], lcg st.2)) (acc, s)).1,
        0 ≤ p.2 ∧ p.2 ≤ (p.1 : ℤ) := by
  induction l with
  | nil => exact fun acc s _ hacc p hp => hacc p hp
  | cons i rest ih =>
    intro acc s hs hacc p hp
    simp only [List.foldl_cons] at hp
    refine ih _ _ (lcg_nonneg hs) ?_ p hp
    intro q hq
    rcases List.mem_append.1 hq with h | h
    · exact hacc q h
    · rcases List.mem_singleton.1 h with rfl
      exact ⟨drawJ_nonneg i (lcg_nonneg hs), drawJ_le i (lcg_nonneg hs) (lcg_lt hs)⟩

theorem shuffleIndicesInBounds_of_nonneg {seed : ℤ} (h : 0 ≤ seed) :
    shuffleIndicesInBounds seed := by
  intro p hp
  unfold shuffleIndices at hp
  exact shuffleIndices_fold_bounds downIdx [] seed h (by simp) p hp

theorem getD_bounds_of_permEntriesOk {p : List ℤ} (h : permEntriesOk p) (n : ℕ) :
    0 ≤ p.getD n 0 ∧ p.getD n 0 < 256 := by
  rcases lt_or_ge n p.length with hn | hn
  · rw [List.getD_eq_getElem?_getD, List.getElem?_eq_getElem hn]
    exact h.2 _ (List.getElem_mem hn)
  · rw [List.getD_eq_default _ _ hn]
    norm_num

theorem shuffleStep_preserves (st : List ℤ × ℤ) (i : ℕ)
    (h : permEntriesOk st.1) : permEntriesOk (shuffleStep st i).1 := by
  obtain ⟨hlen, hmem⟩ := h
  unfold shuffleStep
  dsimp only
  constructor
  · rw [List.length_set, List.length_set]
    exact hlen
  · intro e he
    rcases List.mem_or_eq_of_mem_set he with he1 | he1
    · rcases List.mem_or_eq_of_mem_set he1 with he2 | he2
      · exact hmem e he2
      · subst he2
        exact getD_bounds_of_permEntriesOk ⟨hlen, hmem⟩ _
    · subst he1
      exact getD_bounds_of_permEntriesOk ⟨hlen, hmem⟩ _

theorem foldl_preserves {α β : Type} (P : α → Prop) (f : α → β → α)
    (hf : ∀ a b, P a → P (f a b)) :
    ∀ (l : List β) (a : α), P a → P (l.foldl f a) := by
  intro l
  induction l with
  | nil => exact fun a h => h
  | cons b rest ih => exact fun a h => ih _ (hf a b h)

theorem permShuffle_ok (seed : ℤ) : permEntriesOk (permShuffle seed) := by
  unfold permShuffle
  apply foldl_preserves (fun st : List ℤ × ℤ => permEntriesOk st.1) shuffleStep
    shuffleStep_preserves downIdx
  constructor
  · rw [List.length_map, List.length_range]
  · intro e he
    simp only [List.mem_map, List.mem_range] at he
    obtain ⟨n, hn, rfl⟩ := he
    constructor
    · exact Int.natCast_nonneg n
    · exact_mod_cast hn

theorem permTable_length (seed : ℤ) : (permTable seed).length = 512 := by
  unfold permTable
  rw [List.length_append, (permShuffle_ok seed).1]

theorem permTable_entries (seed : ℤ) : ∀ e ∈ permTable seed, 0 ≤ e ∧ e < 256 := by
  intro e he
  unfold permTable at he
  rcases List.mem_append.1 he with h | h
  · exact (permShuffle_ok seed).2 e h
  · exact (permShuffle_ok seed).2 e h

theorem permTable_getD_bounds (seed : ℤ) (n : ℕ) :
    0 ≤ (permTable seed).getD n 0 ∧ (permTable seed).getD n 0 < 256 := by
  rcases lt_or_ge n (permTable seed).length with hn | hn
  · rw [List.getD_eq_getElem?_getD, List.getElem?_eq_getElem hn]
    exact permTable_entries seed _ (List.getElem_mem hn)
  · rw [List.getD_eq_default _ _ hn]
    norm_num

theorem gridCoord_lt (x : ℚ) : gridCoord x < 256 := by
  unfold gridCoord
  omega

theorem permTable_lookups (seed : ℤ) (x y : ℚ) :
    noise2DLookupsInBounds (permTable seed) x y := by
  have hlen := permTable_length seed
  have hA := permTable_getD_bounds seed (gridCoord x)
  have hB := permTable_getD_bounds seed (gridCoord x + 1)
  have hgx := gridCoord_lt x
  have hgy := gridCoord_lt y
  have hA2 : 0 ≤ permA (permTable seed) x y ∧ permA (permTable seed) x y ≤ 510 := by
    unfold permA
    omega
  have hB2 : 0 ≤ permB (permTable seed) x y ∧ permB (permTable seed) x y ≤ 510 := by
    unfold permB
    omega
  have haa := permTable_getD_bounds seed (permA (permTable seed) x y).toNat
  have hab := permTable_getD_bounds seed (permA (permTable seed) x y + 1).toNat
  have hba := permTable_getD_bounds seed (permB (permTable seed) x y).toNat
  have hbb := permTable_getD_bounds seed (permB (permTable seed) x y + 1).toNat
  unfold noise2DLookupsInBounds cornerHash
  refine ⟨by omega, by omega, hA2.1, by omega, hB2.1, by omega, by omega, by omega,
    by omega, by omega⟩

set_option maxRecDepth 10000 in
/-- C3 (amended): for every nonnegative integer seed, every index the
seeded shuffle draws is within `0..i`, the constructed table has length
512 with entries in `0..255`, every index `noise2D` reads is within the
table's bounds, and seed 0 yields a non-degenerate (non-identity)
table.  (For negative seeds the claim fails: see the counterexample.) -/
theorem permTable_valid_nonneg_seed (seed : ℤ) (hseed : 0 ≤ seed) :
    shuffleIndicesInBounds seed ∧
    (permTable seed).length = 512 ∧
    (∀ e ∈ permTable seed, 0 ≤ e ∧ e < 256) ∧
    (∀ x y : ℚ, noise2DLookupsInBounds (permTable seed) x y) ∧
    permTable 0 ≠ identityTableDoubled :=
  ⟨shuffleIndicesInBounds_of_nonneg hseed, permTable_length seed,
   permTable_entries seed, fun x y => permTable_lookups seed x y,
   by with_unfolding_all decide⟩

theorem permTable_valid_nonneg_seed_witness :
    0 ≤ (3:ℤ) ∧ (shuffleIndicesInBounds 3 ∧ (permTable 3).length = 512 ∧
      (∀ e ∈ permTable 3, 0 ≤ e ∧ e < 256) ∧
      (∀ x y : ℚ, noise2DLookupsInBounds (permTable 3) x y) ∧
      permTable 0 ≠ identityTableDoubled) :=
  ⟨by norm_num, permTable_valid_nonneg_seed 3 (by norm_num)⟩

set_option maxRecDepth 10000 in
/-- C3 counterexample: for seed `-10` the first LCG state is
`(-10 * 9301 + 49297) % 233280 = -43713` (JavaScript's `%` keeps the
dividend's sign), so the first shuffle draw is
`Math.floor(-43713 / 233280 * 256) = -48`, an out-of-bounds index. -/
theorem shuffleIndices_out_of_bounds_neg_seed : ¬ shuffleIndicesInBounds (-10) := by
  with_unfolding_all decide

theorem getD_set_self {α : Type} {l : List α} {i : ℕ} (v d : α) (h : i < l.length) :
    (l.set i v).getD i d = v := by
  rw [List.getD_eq_getElem?_getD, List.getElem?_set_self]
  · simp
  · exact h

theorem getD_set_ne {α : Type} {l : List α} {i j : ℕ} (v d : α) (h : j ≠ i) :
    (l.set j v).getD i d = l.getD i d := by
  rw [List.getD_eq_getElem?_getD, List.getElem?_set_ne h, ← List.getD_eq_getElem?_getD]

theorem foldl_flatMap {α β γ : Type} (f : α → γ → α) (g : β → List γ) (l : List β) :
    ∀ a, (l.flatMap g).foldl f a = l.foldl (fun a b => (g b).foldl f a) a := by
  induction l with
  | nil => intro a; rfl
  | cons b rest ih =>
    intro a
    rw [show (b :: rest).flatMap g = g b ++ rest.flatMap g from rfl,
      List.foldl_append, List.foldl_cons, ih]

theorem applyEdgeFalloff_eq_pairs (hm : List ℚ) (w h : ℕ) (fd : ℚ) :
    applyEdgeFalloff hm w h fd = (cellPairs w h).foldl
      (fun acc p => acc.set (p.2 * w + p.1)
        (acc.getD (p.2 * w + p.1) 0 * falloffMultiplier w h p.1 p.2 fd)) hm := by
  unfold applyEdgeFalloff cellPairs
  rw [foldl_flatMap]
  congr 1
  funext a y
  rw [List.foldl_map]

theorem cellPairs_indices_eq_range (w h : ℕ) :
    (cellPairs w h).map (fun p => p.2 * w + p.1) = List.range (w * h) := by
  unfold cellPairs
  induction h with
  | zero => simp
  | succ n ih =>
    rw [List.range_succ, List.flatMap_append, List.map_append, ih,
      Nat.mul_succ, List.range_add]
    congr 1
    simp only [List.flatMap_cons, List.flatMap_nil, List.append_nil, List.map_map]
    apply List.map_congr_left
    intro x _
    simp [Nat.mul_comm n w]

theorem cellPairs_mem {w h x y : ℕ} (hx : x < w) (hy : y < h) :
    (x, y) ∈ cellPairs w h := by
  unfold cellPairs
  rw [List.mem_flatMap]
  exact ⟨y, List.mem_range.2 hy, List.mem_map.2 ⟨x, List.mem_range.2 hx, rfl⟩⟩

theorem cellIndex_lt {x y w h : ℕ} (hx : x < w) (hy : y < h) : y * w + x < w * h := by
  calc y * w + x < y * w + w := by omega
    _ = (y + 1) * w := by ring
    _ ≤ h * w := Nat.mul_le_mul_right w hy
    _ = w * h := Nat.mul_comm h w

theorem foldl_set_getD_not_mem (w h : ℕ) (fd : ℚ) :
    ∀ (ps : List (ℕ × ℕ)) (acc : List ℚ) (i : ℕ),
      (∀ q ∈ ps, q.2 * w + q.1 ≠ i) →
      ((ps.foldl (fun acc p => acc.set (p.2 * w + p.1)
          (acc.getD (p.2 * w + p.1) 0 * falloffMultiplier w h p.1 p.2 fd)) acc).getD i 0) =
        acc.getD i 0 := by
  intro ps
  induction ps with
  | nil => intro acc i _; rfl
  | cons p rest ih =>
    intro acc i hni
    rw [List.foldl_cons, ih _ i (fun q hq => hni q (List.mem_cons_of_mem p hq)),
      getD_set_ne _ _ (hni p (List.mem_cons_self p rest))]

theorem foldl_mul_set_getD (w h : ℕ) (fd : ℚ) :
    ∀ (ps : List (ℕ × ℕ)) (acc : List ℚ) (x y : ℕ),
      (ps.map fun p => p.2 * w + p.1).Nodup →
      (x, y) ∈ ps → y * w + x < acc.length →
      ((ps.foldl (fun acc p => acc.set (p.2 * w + p.1)
          (acc.getD (p.2 * w + p.1) 0 * falloffMultiplier w h p.1 p.2 fd)) acc).getD
            (y * w + x) 0) =
        acc.getD (y * w + x) 0 * falloffMultiplier w h x y fd := by
  intro ps
  induction ps with
  | nil =>
    intro acc x y _ hmem _
    exact absurd hmem (List.not_mem_nil _)
  | cons p rest ih =>
    intro acc x y hnd hmem hlen
    rw [List.map_cons, List.nodup_cons] at hnd
    rw [List.foldl_cons]
    rcases eq_or_ne (p.2 * w + p.1) (y * w + x) with hidx | hidx
    · have hp : p = (x, y) := by
        rcases List.mem_cons.1 hmem with h1 | h1
        · exact h1.symm
        · exact absurd (hidx ▸ List.mem_map.2 ⟨(x, y), h1, rfl⟩) hnd.1
      subst hp
      have hrest : ∀ q ∈ rest, q.2 * w + q.1 ≠ y * w + x := by
        intro q hq hcontra
        exact hnd.1 (hidx ▸ hcontra ▸ List.mem_map.2 ⟨q, hq, rfl⟩)
      rw [foldl_set_getD_not_mem w h fd rest _ _ hrest]
      dsimp only
      rw [getD_set_self _ _ hlen]
    · have hmem' : (x, y) ∈ rest := by
        rcases List.mem_cons.1 hmem with h1 | h1
        · exact absurd (by rw [← h1]) hidx
        · exact h1
      rw [ih _ x y hnd.2 hmem' (by rw [List.length_set]; exact hlen),
        getD_set_ne _ _ hidx]

theorem applyEdgeFalloff_getD (hm : List ℚ) (w h : ℕ) (fd : ℚ) (x y : ℕ)
    (hx : x < w) (hy : y < h) (hlen : y * w + x < hm.length) :
    (applyEdgeFalloff hm w h fd).getD (y * w + x) 0 =
      hm.getD (y * w + x) 0 * falloffMultiplier w h x y fd := by
  rw [applyEdgeFalloff_eq_pairs]
  exact foldl_mul_set_getD w h fd (cellPairs w h) hm x y
    (by rw [cellPairs_indices_eq_range]; exact List.nodup_range _)
    (cellPairs_mem hx hy) hlen

theorem normCoord_abs_le {w x : ℕ} (hw : 2 ≤ w) (hx : x < w) :
    |(x : ℚ) / ((w : ℚ) - 1) * 2 - 1| ≤ 1 := by
  have hw1 : (1:ℚ) ≤ (w:ℚ) - 1 := by
    have h2 : (2:ℚ) ≤ (w:ℚ) := by exact_mod_cast hw
    linarith
  have hx1 : (x:ℚ) ≤ (w:ℚ) - 1 := by
    have h2 : (x:ℚ) + 1 ≤ (w:ℚ) := by exact_mod_cast hx
    linarith
  have hq0 : (0:ℚ) ≤ (x:ℚ) / ((w:ℚ) - 1) := div_nonneg (by positivity) (by linarith)
  have hq1 : (x:ℚ) / ((w:ℚ) - 1) ≤ 1 := (div_le_one (by linarith)).2 hx1
  rw [abs_le]
  constructor <;> linarith

theorem distFromEdge_mem {w h x y : ℕ} (hw : 2 ≤ w) (hh : 2 ≤ h)
    (hx : x < w) (hy : y < h) :
    0 ≤ distFromEdge w h x y ∧ distFromEdge w h x y ≤ 1 := by
  have h1 := normCoord_abs_le hw hx
  have h2 := normCoord_abs_le hh hy
  unfold distFromEdge
  dsimp only
  constructor
  · have := max_le h1 h2
    linarith
  · have ha := abs_nonneg ((x : ℚ) / ((w : ℚ) - 1) * 2 - 1)
    have hb := le_max_left |(x : ℚ) / ((w : ℚ) - 1) * 2 - 1| |(y : ℚ) / ((h : ℚ) - 1) * 2 - 1|
    linarith

theorem falloffMultiplier_mem {w h x y : ℕ} (fd : ℚ) (hw : 2 ≤ w) (hh : 2 ≤ h)
    (hx : x < w) (hy : y < h) :
    0 ≤ falloffMultiplier w h x y fd ∧ falloffMultiplier w h x y fd ≤ 1 := by
  have hd := distFromEdge_mem hw hh hx hy
  unfold falloffMultiplier
  split_ifs with hlt
  · have hfd : 0 < fd := lt_of_le_of_lt hd.1 hlt
    have ht0 : 0 ≤ distFromEdge w h x y / fd := div_nonneg hd.1 hfd.le
    have ht1 : distFromEdge w h x y / fd ≤ 1 := by
      rw [div_le_one hfd]
      exact hlt.le
    dsimp only
    constructor
    · nlinarith
    · nlinarith [mul_nonneg (sq_nonneg (1 - distFromEdge w h x y / fd))
        (show (0:ℚ) ≤ 1 + 2 * (distFromEdge w h x y / fd) by linarith)]
  · norm_num

/-- C7: after `applyEdgeFalloff`, every cell with
`distFromEdge ≥ falloffDistance` holds its original value, every other
cell's magnitude does not exceed its pre-falloff magnitude, and on a
uniform 10×10 heightmap of value 1 with `falloffDistance = 0.2` the
corner cell `(0,0)` is strictly below the center cell `(5,5)`, which
stays exactly 1. -/
theorem applyEdgeFalloff_shape :
    (∀ (hm : List ℚ) (w h : ℕ) (fd : ℚ) (x y : ℕ),
      2 ≤ w → 2 ≤ h → hm.length = w * h → x < w → y < h →
      ((fd ≤ distFromEdge w h x y →
        (applyEdgeFalloff hm w h fd).getD (y * w + x) 0 = hm.getD (y * w + x) 0) ∧
      |(applyEdgeFalloff hm w h fd).getD (y * w + x) 0| ≤ |hm.getD (y * w + x) 0|)) ∧
    ((applyEdgeFalloff (List.replicate 100 (1:ℚ)) 10 10 (1/5)).getD (0 * 10 + 0) 0 <
      (applyEdgeFalloff (List.replicate 100 (1:ℚ)) 10 10 (1/5)).getD (5 * 10 + 5) 0 ∧
      (applyEdgeFalloff (List.replicate 100 (1:ℚ)) 10 10 (1/5)).getD (5 * 10 + 5) 0 = 1) := by
  constructor
  · intro hm w h fd x y hw hh hlen hx hy
    have hidx : y * w + x < hm.length := by
      rw [hlen]
      exact cellIndex_lt hx hy
    have hchar := applyEdgeFalloff_getD hm w h fd x y hx hy hidx
    have hmul := falloffMultiplier_mem fd hw hh hx hy
    constructor
    · intro hge
      rw [hchar]
      unfold falloffMultiplier
      rw [if_neg (not_lt.2 hge), mul_one]
    · rw [hchar, abs_mul, abs_of_nonneg hmul.1]
      exact mul_le_of_le_one_right (abs_nonneg _) hmul.2
  · constructor
    · with_unfolding_all decide
    · with_unfolding_all decide

theorem applyEdgeFalloff_shape_witness :
    ((3/20:ℚ) ≤ distFromEdge 2 2 0 0 →
      (applyEdgeFalloff (List.replicate 4 (1:ℚ)) 2 2 (3/20)).getD (0 * 2 + 0) 0 =
        (List.replicate 4 (1:ℚ)).getD (0 * 2 + 0) 0) ∧
    |(applyEdgeFalloff (List.replicate 4 (1:ℚ)) 2 2 (3/20)).getD (0 * 2 + 0) 0| ≤
      |(List.replicate 4 (1:ℚ)).getD (0 * 2 + 0) 0| :=
  applyEdgeFalloff_shape.1 (List.replicate 4 1) 2 2 (3/20) 0 0 (by norm_num) (by norm_num)
    (by simp) (by norm_num) (by norm_num)

theorem normCoord_border_left (w : ℕ) : (0 : ℚ) / ((w : ℚ) - 1) * 2 - 1 = -1 := by
  rw [zero_div]
  ring

theorem normCoord_border_right {w : ℕ} (hw : 2 ≤ w) :
    ((w - 1 : ℕ) : ℚ) / ((w : ℚ) - 1) * 2 - 1 = 1 := by
  have hcast : ((w - 1 : ℕ) : ℚ) = (w : ℚ) - 1 := by
    have : (1:ℕ) ≤ w := by omega
    push_cast [Nat.cast_sub this]
    ring
  have hne : (w : ℚ) - 1 ≠ 0 := by
    have h2 : (2:ℚ) ≤ (w:ℚ) := by exact_mod_cast hw
    linarith
  rw [hcast, div_self hne]
  ring

theorem distFromEdge_border {w h x y : ℕ} (hw : 2 ≤ w) (hh : 2 ≤ h)
    (hx : x < w) (hy : y < h)
    (hb : x = 0 ∨ x = w - 1 ∨ y = 0 ∨ y = h - 1) : distFromEdge w h x y = 0 := by
  have h1 := normCoord_abs_le hw hx
  have h2 := normCoord_abs_le hh hy
  unfold distFromEdge
  dsimp only
  have hone : |(x : ℚ) / ((w : ℚ) - 1) * 2 - 1| = 1 ∨
      |(y : ℚ) / ((h : ℚ) - 1) * 2 - 1| = 1 := by
    rcases hb with rfl | rfl | rfl | rfl
    · left
      rw [Nat.cast_zero, normCoord_border_left]
      norm_num
    · left
      rw [normCoord_border_right hw]
      norm_num
    · right
      rw [Nat.cast_zero, normCoord_border_left]
      norm_num
    · right
      rw [normCoord_border_right hh]
      norm_num
  rcases hone with hone | hone
  · rw [max_eq_left (by rw [hone]; exact h2), hone]
    ring
  · rw [max_eq_right (by rw [hone]; exact h1), hone]
    ring

/-- C10: for every heightmap of the grid's dimensions with width and
height at least 2 and every falloff distance in (0, 1], every cell in
the first or last row or column is set to exactly 0: its border
smoothstep multiplier is exactly zero. -/
theorem applyEdgeFalloff_border_zero (hm : List ℚ) (w h : ℕ) (fd : ℚ) (x y : ℕ)
    (hw : 2 ≤ w) (hh : 2 ≤ h) (hfd0 : 0 < fd) (_hfd1 : fd ≤ 1)
    (hlen : hm.length = w * h) (hx : x < w) (hy : y < h)
    (hb : x = 0 ∨ x = w - 1 ∨ y = 0 ∨ y = h - 1) :
    (applyEdgeFalloff hm w h fd).getD (y * w + x) 0 = 0 := by
  rw [applyEdgeFalloff_getD hm w h fd x y hx hy (by rw [hlen]; exact cellIndex_lt hx hy)]
  unfold falloffMultiplier
  rw [distFromEdge_border hw hh hx hy hb, if_pos hfd0]
  simp

theorem applyEdgeFalloff_border_zero_witness :
    (applyEdgeFalloff [1, 2, 3, 4] 2 2 (1/5)).getD (1 * 2 + 0) 0 = 0 :=
  applyEdgeFalloff_border_zero [1, 2, 3, 4] 2 2 (1/5) 0 1 (by norm_num) (by norm_num)
    (by norm_num) (by norm_num) (by simp) (by norm_num) (by norm_num) (Or.inl rfl)

theorem storeGet_setCell_ne {s : List (List ℚ)} {r q : ℕ} (idx : ℕ) (v : ℚ)
    (hne : q ≠ r) : storeGet (storeSetCell s r idx v) q = storeGet s q := by
  unfold storeGet storeSetCell
  exact getD_set_ne _ _ (fun hc => hne hc.symm)

/-- C9: `applyEdgeFalloff` allocates a fresh buffer and never writes to
its input: the input buffer's contents after the call equal its
contents before it, and the returned buffer id differs from the
input's. -/
theorem applyEdgeFalloffStore_no_mutation (store : List (List ℚ)) (p w h : ℕ) (fd : ℚ)
    (hp : p < store.length) :
    storeGet (applyEdgeFalloffStore store p w h fd).1 p = storeGet store p ∧
    (applyEdgeFalloffStore store p w h fd).2 ≠ p := by
  have hne : p ≠ store.length := Nat.ne_of_lt hp
  unfold applyEdgeFalloffStore
  dsimp only
  refine ⟨?_, fun hcontra => hne hcontra.symm⟩
  have base : storeGet (store ++ [storeGet store p]) p = storeGet store p := by
    unfold storeGet
    exact List.getD_append _ _ _ _ hp
  refine foldl_preserves (fun s : List (List ℚ) => storeGet s p = storeGet store p)
    _ ?_ (List.range h) _ base
  intro s y hs
  refine foldl_preserves (fun s : List (List ℚ) => storeGet s p = storeGet store p)
    _ ?_ (List.range w) s hs
  intro s2 x hs2
  rw [← hs2]
  exact storeGet_setCell_ne _ _ hne

theorem applyEdgeFalloffStore_no_mutation_witness :
    storeGet (applyEdgeFalloffStore [[1, 2, 3, 4]] 0 2 2 (3/20)).1 0 =
      storeGet [[1, 2, 3, 4]] 0 ∧
    (applyEdgeFalloffStore [[1, 2, 3, 4]] 0 2 2 (3/20)).2 ≠ 0 :=
  applyEdgeFalloffStore_no_mutation [[1, 2, 3, 4]] 0 2 2 (3/20) (by norm_num)

theorem natIndex_toNat (a b c : ℕ) : ((a : ℤ) * (b : ℤ) + (c : ℤ)).toNat = a * b + c := by
  rw [← Nat.cast_mul, ← Nat.cast_add, Int.toNat_natCast]

/-- C6: `sampleHeight` at a world position mapping exactly to the
integer lattice point `(ui, vi)` returns the stored value
`heightmap[vi * width + ui]`; at the midpoint of four corner cells that
hold one common value it returns that value. -/
theorem sampleHeight_exact :
    (∀ (hm : List ℚ) (w h : ℕ) (x z ts : ℚ) (ui vi : ℕ),
      0 < ts → ui < w → vi < h →
      (x + ts / 2) / ts * ((w : ℚ) - 1) = (ui : ℚ) →
      (z + ts / 2) / ts * ((h : ℚ) - 1) = (vi : ℚ) →
      sampleHeight hm w h x z ts = hm.getD (vi * w + ui) 0) ∧
    (∀ (hm : List ℚ) (w h : ℕ) (x z ts : ℚ) (ui vi : ℕ) (c : ℚ),
      0 < ts → ui + 1 < w → vi + 1 < h →
      (x + ts / 2) / ts * ((w : ℚ) - 1) = (ui : ℚ) + 1/2 →
      (z + ts / 2) / ts * ((h : ℚ) - 1) = (vi : ℚ) + 1/2 →
      hm.getD (vi * w + ui) 0 = c → hm.getD (vi * w + (ui + 1)) 0 = c →
      hm.getD ((vi + 1) * w + ui) 0 = c → hm.getD ((vi + 1) * w + (ui + 1)) 0 = c →
      sampleHeight hm w h x z ts = c) := by
  constructor
  · intro hm w h x z ts ui vi hts hui hvi hu hv
    unfold sampleHeight
    dsimp only
    rw [hu, hv]
    have hwq : (ui : ℚ) ≤ (w : ℚ) - 1 := by
      have : (ui : ℚ) + 1 ≤ (w : ℚ) := by exact_mod_cast hui
      linarith
    have hhq : (vi : ℚ) ≤ (h : ℚ) - 1 := by
      have : (vi : ℚ) + 1 ≤ (h : ℚ) := by exact_mod_cast hvi
      linarith
    have hcu : max 0 (min ((w : ℚ) - 1) (ui : ℚ)) = (ui : ℚ) := by
      rw [min_eq_right hwq]
      exact max_eq_right (by positivity)
    have hcv : max 0 (min ((h : ℚ) - 1) (vi : ℚ)) = (vi : ℚ) := by
      rw [min_eq_right hhq]
      exact max_eq_right (by positivity)
    rw [hcu, hcv, Int.floor_natCast, Int.floor_natCast]
    rw [Int.cast_natCast, Int.cast_natCast, sub_self, sub_self]
    rw [natIndex_toNat]
    ring_nf
  · intro hm w h x z ts ui vi c hts hui hvi hu hv h00 h10 h01 h11
    unfold sampleHeight
    dsimp only
    rw [hu, hv]
    have hwq : (ui : ℚ) + 1/2 ≤ (w : ℚ) - 1 := by
      have : (ui : ℚ) + 1 + 1 ≤ (w : ℚ) := by exact_mod_cast hui
      linarith
    have hhq : (vi : ℚ) + 1/2 ≤ (h : ℚ) - 1 := by
      have : (vi : ℚ) + 1 + 1 ≤ (h : ℚ) := by exact_mod_cast hvi
      linarith
    have hfu : Int.floor ((ui : ℚ) + 1/2) = (ui : ℤ) := by
      rw [Int.floor_eq_iff]
      constructor
      · push_cast
        linarith
      · push_cast
        linarith
    have hfv : Int.floor ((vi : ℚ) + 1/2) = (vi : ℤ) := by
      rw [Int.floor_eq_iff]
      constructor
      · push_cast
        linarith
      · push_cast
        linarith
    have hx1 : min ((ui : ℤ) + 1) ((w : ℤ) - 1) = (ui : ℤ) + 1 := by
      apply min_eq_left
      omega
    have hy1 : min ((vi : ℤ) + 1) ((h : ℤ) - 1) = (vi : ℤ) + 1 := by
      apply min_eq_left
      omega
    have hcu : max 0 (min ((w : ℚ) - 1) ((ui : ℚ) + 1/2)) = (ui : ℚ) + 1/2 := by
      rw [min_eq_right hwq]
      exact max_eq_right (by positivity)
    have hcv : max 0 (min ((h : ℚ) - 1) ((vi : ℚ) + 1/2)) = (vi : ℚ) + 1/2 := by
      rw [min_eq_right hhq]
      exact max_eq_right (by positivity)
    rw [hcu, hcv, hfu, hfv, hx1, hy1]
    rw [Int.cast_natCast, Int.cast_natCast]
    have e00 : ((vi : ℤ) * (w : ℤ) + (ui : ℤ)).toNat = vi * w + ui := natIndex_toNat vi w ui
    have e10 : ((vi : ℤ) * (w : ℤ) + ((ui : ℤ) + 1)).toNat = vi * w + (ui + 1) := by
      rw [show (ui : ℤ) + 1 = ((ui + 1 : ℕ) : ℤ) by push_cast; ring]
      exact natIndex_toNat vi w (ui + 1)
    have e01 : (((vi : ℤ) + 1) * (w : ℤ) + (ui : ℤ)).toNat = (vi + 1) * w + ui := by
      rw [show (vi : ℤ) + 1 = ((vi + 1 : ℕ) : ℤ) by push_cast; ring]
      exact natIndex_toNat (vi + 1) w ui
    have e11 : (((vi : ℤ) + 1) * (w : ℤ) + ((ui : ℤ) + 1)).toNat = (vi + 1) * w + (ui + 1) := by
      rw [show (ui : ℤ) + 1 = ((ui + 1 : ℕ) : ℤ) by push_cast; ring,
        show (vi : ℤ) + 1 = ((vi + 1 : ℕ) : ℤ) by push_cast; ring]
      exact natIndex_toNat (vi + 1) w (ui + 1)
    rw [e00, e10, e01, e11, h00, h10, h01, h11]
    ring

theorem sampleHeight_exact_witness :
    ((0:ℚ) < 2 ∧ 1 < 2 ∧ 1 < 2 ∧
      sampleHeight [1, 2, 3, 4] 2 2 1 1 2 = [1, 2, 3, 4].getD (1 * 2 + 1) 0) ∧
    ((0:ℚ) < 2 ∧ 0 + 1 < 2 ∧ 0 + 1 < 2 ∧
      sampleHeight [5, 5, 5, 5] 2 2 0 0 2 = 5) := by
  constructor
  · refine ⟨by norm_num, by norm_num, by norm_num, ?_⟩
    exact sampleHeight_exact.1 [1, 2, 3, 4] 2 2 1 1 2 1 1 (by norm_num) (by norm_num)
      (by norm_num) (by norm_num) (by norm_num)
  · refine ⟨by norm_num, by norm_num, by norm_num, ?_⟩
    exact sampleHeight_exact.2 [5, 5, 5, 5] 2 2 0 0 2 0 0 5 (by norm_num) (by norm_num)
      (by norm_num) (by norm_num) (by norm_num) (by norm_num) (by norm_num)
      (by norm_num) (by norm_num)

theorem getD_zero_of_all_zero {hm : List ℚ} (hz : ∀ v ∈ hm, v = 0) (n : ℕ) :
    hm.getD n 0 = 0 := by
  rcases lt_or_ge n hm.length with hn | hn
  · rw [List.getD_eq_getElem?_getD, List.getElem?_eq_getElem hn]
    exact hz _ (List.getElem_mem hn)
  · rw [List.getD_eq_default _ _ hn]

/-- C8: every entry of `calculateSlopes` lies in `[0, 1]` for arbitrary
heightmaps and positive terrain size, and a flat all-zero heightmap
produces an all-zero slope array. -/
theorem calculateSlopes_bounds :
    (∀ (hm : List ℚ) (w h : ℕ) (ts : ℚ), 0 < ts →
      ∀ s ∈ calculateSlopes hm w h ts, 0 ≤ s ∧ s ≤ 1) ∧
    (∀ (hm : List ℚ) (w h : ℕ) (ts : ℚ), 0 < ts → (∀ v ∈ hm, v = 0) →
      ∀ s ∈ calculateSlopes hm w h ts, s = 0) := by
  constructor
  · intro hm w h ts _hts s hs
    simp only [calculateSlopes, List.mem_flatMap, List.mem_map, List.mem_range] at hs
    obtain ⟨y, _hy, x, _hx, rfl⟩ := hs
    constructor
    · exact le_min (by norm_num)
        (mul_nonneg (Real.sqrt_nonneg _) (by norm_num))
    · exact min_le_left _ _
  · intro hm w h ts _hts hz s hs
    simp only [calculateSlopes, List.mem_flatMap, List.mem_map, List.mem_range] at hs
    obtain ⟨y, _hy, x, _hx, rfl⟩ := hs
    have hg := getD_zero_of_all_zero hz
    simp only [hg, ite_self, sub_self, zero_div]
    norm_num

theorem calculateSlopes_bounds_witness :
    ((0:ℚ) < 10 ∧ ∀ s ∈ calculateSlopes [1, 2, 3, 4] 2 2 10, 0 ≤ s ∧ s ≤ 1) ∧
    ((0:ℚ) < 10 ∧ (∀ v ∈ ([0, 0, 0, 0] : List ℚ), v = 0) ∧
      ∀ s ∈ calculateSlopes [0, 0, 0, 0] 2 2 10, s = 0) :=
  ⟨⟨by norm_num, calculateSlopes_bounds.1 [1, 2, 3, 4] 2 2 10 (by norm_num)⟩,
   ⟨by norm_num, by decide,
    calculateSlopes_bounds.2 [0, 0, 0, 0] 2 2 10 (by norm_num) (by decide)⟩⟩

theorem octIter_inv (perm : List ℤ) (x y : ℕ) (pers lac : ℚ) (hpers : 0 < pers) :
    ∀ (n : ℕ) (st : ℚ × ℚ × ℚ × ℚ), |st.1| ≤ st.2.1 → 0 < st.2.2.1 →
      |((octStep perm x y pers lac)^[n] st).1| ≤ ((octStep perm x y pers lac)^[n] st).2.1 ∧
      0 < ((octStep perm x y pers lac)^[n] st).2.2.1 ∧
      st.2.1 ≤ ((octStep perm x y pers lac)^[n] st).2.1 := by
  intro n
  induction n with
  | zero => exact fun st h1 h2 => ⟨h1, h2, le_refl _⟩
  | succ m ih =>
    intro st h1 h2
    rw [Function.iterate_succ_apply]
    have hn := noise2D_abs_le_one perm ((x : ℚ) * st.2.2.2) ((y : ℚ) * st.2.2.2)
    have hstep1 : |(octStep perm x y pers lac st).1| ≤ (octStep perm x y pers lac st).2.1 := by
      unfold octStep
      dsimp only
      have habs : |noise2D perm ((x : ℚ) * st.2.2.2) ((y : ℚ) * st.2.2.2) * st.2.2.1| ≤
          st.2.2.1 := by
        rw [abs_mul, abs_of_pos h2]
        exact mul_le_of_le_one_left h2.le hn
      calc |st.1 + noise2D perm ((x : ℚ) * st.2.2.2) ((y : ℚ) * st.2.2.2) * st.2.2.1|
          ≤ |st.1| + |noise2D perm ((x : ℚ) * st.2.2.2) ((y : ℚ) * st.2.2.2) * st.2.2.1| :=
            abs_add _ _
        _ ≤ st.2.1 + st.2.2.1 := add_le_add h1 habs
    have hstep2 : 0 < (octStep perm x y pers lac st).2.2.1 := by
      unfold octStep
      dsimp only
      exact mul_pos h2 hpers
    obtain ⟨a1, a2, a3⟩ := ih (octStep perm x y pers lac st) hstep1 hstep2
    refine ⟨a1, a2, le_trans ?_ a3⟩
    unfold octStep
    dsimp only
    linarith

theorem rawCell_bounded (perm : List ℤ) (x y : ℕ) (o : HeightmapOptions)
    (hpers : 0 < o.persistence) (hoct : 1 ≤ o.octaves) :
    ∃ q : ℚ, rawCell perm x y o = some q ∧ |q| ≤ 1 := by
  obtain ⟨m, hm⟩ : ∃ m, o.octaves = m + 1 := ⟨o.octaves - 1, by omega⟩
  unfold rawCell
  dsimp only
  rw [hm, Function.iterate_succ_apply]
  have hfirst1 : |(octStep perm x y o.persistence o.lacunarity (0, 0, 1, o.scale)).1| ≤
      (octStep perm x y o.persistence o.lacunarity (0, 0, 1, o.scale)).2.1 := by
    unfold octStep
    dsimp only
    simp only [zero_add, mul_one]
    exact noise2D_abs_le_one perm ((x : ℚ) * o.scale) ((y : ℚ) * o.scale)
  have hfirst2 : 0 < (octStep perm x y o.persistence o.lacunarity (0, 0, 1, o.scale)).2.2.1 := by
    unfold octStep
    dsimp only
    simpa using hpers
  obtain ⟨b1, _b2, b3⟩ := octIter_inv perm x y o.persistence o.lacunarity hpers m
    (octStep perm x y o.persistence o.lacunarity (0, 0, 1, o.scale)) hfirst1 hfirst2
  have has1 : (1:ℚ) ≤ ((octStep perm x y o.persistence o.lacunarity)^[m]
      (octStep perm x y o.persistence o.lacunarity (0, 0, 1, o.scale))).2.1 := by
    refine le_trans ?_ b3
    unfold octStep
    dsimp only
    norm_num
  have hpos : (0:ℚ) < ((octStep perm x y o.persistence o.lacunarity)^[m]
      (octStep perm x y o.persistence o.lacunarity (0, 0, 1, o.scale))).2.1 := by
    linarith
  refine ⟨((octStep perm x y o.persistence o.lacunarity)^[m]
      (octStep perm x y o.persistence o.lacunarity (0, 0, 1, o.scale))).1 /
    ((octStep perm x y o.persistence o.lacunarity)^[m]
      (octStep perm x y o.persistence o.lacunarity (0, 0, 1, o.scale))).2.1, ?_, ?_⟩
  · unfold jsDiv
    rw [if_neg hpos.ne']
  · rw [abs_div, abs_of_pos hpos, div_le_one hpos]
    exact b1

theorem rawGrid_all_bounded (w h : ℕ) (o : HeightmapOptions)
    (hpers : 0 < o.persistence) (hoct : 1 ≤ o.octaves) :
    ∀ v ∈ rawGrid w h o, ∃ q : ℚ, v = some q ∧ |q| ≤ 1 := by
  intro v hv
  simp only [rawGrid, List.mem_flatMap, List.mem_map, List.mem_range] at hv
  obtain ⟨y, _, x, _, rfl⟩ := hv
  exact rawCell_bounded _ x y o hpers hoct

theorem foldl_jsMaxO_bound (g : List (Option ℚ)) :
    ∀ (a : ℚ), (∀ v ∈ g, ∃ q : ℚ, v = some q) →
      ∃ M : ℚ, g.foldl jsMaxO (some a) = some M ∧ a ≤ M ∧
        ∀ q : ℚ, some q ∈ g → q ≤ M := by
  induction g with
  | nil =>
    intro a _
    exact ⟨a, rfl, le_refl a, fun q hq => absurd hq (List.not_mem_nil _)⟩
  | cons v rest ih =>
    intro a hall
    obtain ⟨q0, rfl⟩ := hall v (List.mem_cons_self v rest)
    rw [List.foldl_cons, show jsMaxO (some a) (some q0) = some (max a q0) from rfl]
    obtain ⟨M, hM, haM, hbound⟩ := ih (max a q0)
      (fun v hv => hall v (List.mem_cons_of_mem _ hv))
    refine ⟨M, hM, le_trans (le_max_left a q0) haM, ?_⟩
    intro q hq
    rcases List.mem_cons.1 hq with h1 | h1
    · have hq0 : q = q0 := Option.some_injective ℚ h1
      rw [hq0]
      exact le_trans (le_max_right a q0) haM
    · exact hbound q h1

theorem foldl_jsMinO_bound (g : List (Option ℚ)) :
    ∀ (a : ℚ), (∀ v ∈ g, ∃ q : ℚ, v = some q) →
      ∃ m : ℚ, g.foldl jsMinO (some a) = some m ∧ m ≤ a ∧
        ∀ q : ℚ, some q ∈ g → m ≤ q := by
  induction g with
  | nil =>
    intro a _
    exact ⟨a, rfl, le_refl a, fun q hq => absurd hq (List.not_mem_nil _)⟩
  | cons v rest ih =>
    intro a hall
    obtain ⟨q0, rfl⟩ := hall v (List.mem_cons_self v rest)
    rw [List.foldl_cons, show jsMinO (some a) (some q0) = some (min a q0) from rfl]
    obtain ⟨m, hm, ham, hbound⟩ := ih (min a q0)
      (fun v hv => hall v (List.mem_cons_of_mem _ hv))
    refine ⟨m, hm, le_trans ham (min_le_left a q0), ?_⟩
    intro q hq
    rcases List.mem_cons.1 hq with h1 | h1
    · have hq0 : q = q0 := Option.some_injective ℚ h1
      rw [hq0]
      exact le_trans ham (min_le_right a q0)
    · exact hbound q h1

/-- C1 (amended): for width, height ≥ 1, integer seed in -1000..1000,
octaves in 1..8 and positive amplitude — and additionally positive
persistence, nonnegative redistribution, and a non-degenerate
accumulated range (observed max ≠ observed min) — every entry of the
buffer returned by `generateHeightmap` is a finite number in
`[0, amplitude]`.  As literally stated the claim fails; see the
counterexample at width = height = 1. -/
theorem generateHeightmap_range (width height : ℕ) (o : HeightmapOptions)
    (_hw : 1 ≤ width) (_hh : 1 ≤ height)
    (_hseed1 : -1000 ≤ o.seed) (_hseed2 : o.seed ≤ 1000)
    (hoct1 : 1 ≤ o.octaves) (_hoct2 : o.octaves ≤ 8)
    (hamp : 0 < o.amplitude) (hpers : 0 < o.persistence)
    (hredis : 0 ≤ o.redistribution)
    (hdeg : gridMax (rawGrid width height o) ≠ gridMin (rawGrid width height o)) :
    ∀ v ∈ generateHeightmap width height o,
      ∃ q : ℝ, v = some q ∧ 0 ≤ q ∧ q ≤ ((o.amplitude : ℚ) : ℝ) := by
  intro v hv
  have hall := rawGrid_all_bounded width height o hpers hoct1
  have hall' : ∀ u ∈ rawGrid width height o, ∃ q : ℚ, u = some q :=
    fun u hu => (hall u hu).imp (fun q hq => hq.1)
  obtain ⟨M, hMfold, hM0, hMbound⟩ := foldl_jsMaxO_bound (rawGrid width height o) 0 hall'
  obtain ⟨m, hmfold, hm0, hmbound⟩ := foldl_jsMinO_bound (rawGrid width height o) 0 hall'
  have hMfold' : gridMax (rawGrid width height o) = some M := hMfold
  have hmfold' : gridMin (rawGrid width height o) = some m := hmfold
  have hMm : m < M := by
    rcases lt_or_eq_of_le (le_trans hm0 hM0) with h | h
    · exact h
    · exact absurd (by rw [hMfold', hmfold', h]) hdeg
  unfold generateHeightmap at hv
  dsimp only at hv
  rw [List.mem_map] at hv
  obtain ⟨u, hu, rfl⟩ := hv
  obtain ⟨q, rfl, _hqabs⟩ := hall u hu
  have hq1 : m ≤ q := hmbound q hu
  have hq2 : q ≤ M := hMbound q hu
  rw [hMfold', hmfold']
  unfold normalizeCell
  dsimp only
  have hMm0 : M - m ≠ 0 := by
    have : (0:ℚ) < M - m := by linarith
    exact this.ne'
  rw [show jsDiv (q - m) (M - m) = some ((q - m) / (M - m)) from by
    unfold jsDiv
    rw [if_neg hMm0]]
  rw [Option.some_bind]
  have hn0 : (0:ℝ) ≤ (((q - m) / (M - m) : ℚ) : ℝ) := by
    have h : (0:ℚ) ≤ (q - m) / (M - m) := div_nonneg (by linarith) (by linarith)
    exact_mod_cast h
  have hn1 : (((q - m) / (M - m) : ℚ) : ℝ) ≤ 1 := by
    have h : ((q - m) / (M - m) : ℚ) ≤ 1 := by
      rw [div_le_one (by linarith)]
      linarith
    exact_mod_cast h
  have hr0 : (0:ℝ) ≤ ((o.redistribution : ℚ) : ℝ) := by exact_mod_cast hredis
  unfold jsPow
  rw [if_neg (fun hc => absurd hc.2 (not_lt.2 hr0)),
    if_neg (fun hc => absurd hc.1 (not_lt.2 hn0))]
  rw [Option.map_some']
  refine ⟨_, rfl, ?_, ?_⟩
  · exact mul_nonneg (Real.rpow_nonneg hn0 _) (by exact_mod_cast hamp.le)
  · have hple : (((q - m) / (M - m) : ℚ) : ℝ) ^ ((o.redistribution : ℚ) : ℝ) ≤ 1 :=
      Real.rpow_le_one hn0 hn1 hr0
    calc (((q - m) / (M - m) : ℚ) : ℝ) ^ ((o.redistribution : ℚ) : ℝ) * ((o.amplitude : ℚ) : ℝ)
        ≤ 1 * ((o.amplitude : ℚ) : ℝ) :=
          mul_le_mul_of_nonneg_right hple (by exact_mod_cast hamp.le)
      _ = ((o.amplitude : ℚ) : ℝ) := one_mul _

set_option maxRecDepth 10000 in
theorem rawGrid_unit_eq : rawGrid 1 1 defaultOptions = [some 0] := by
  with_unfolding_all decide

theorem generateHeightmap_unit_eq_none :
    generateHeightmap 1 1 defaultOptions = [none] := by
  unfold generateHeightmap
  dsimp only
  rw [rawGrid_unit_eq]
  rw [show gridMin [some (0:ℚ)] = some 0 from by with_unfolding_all decide,
    show gridMax [some (0:ℚ)] = some 0 from by with_unfolding_all decide]
  rw [List.map_cons, List.map_nil]
  unfold normalizeCell
  dsimp only
  rw [show jsDiv ((0:ℚ) - 0) (0 - 0) = none from by
    unfold jsDiv
    norm_num]
  rfl

/-- C1 counterexample: at width = height = 1 with the default options
(seed 42 in -1000..1000, octaves 4 in 1..8, amplitude 1/2 > 0) every
octave samples `noise2D` at the origin, so the accumulated field is
identically zero, the observed max equals the observed min, and the
normalization computes `(0 - 0) / (0 - 0) = NaN`: the returned buffer
holds a non-finite entry, not a value in `[0, amplitude]`. -/
theorem generateHeightmap_not_always_in_range :
    ¬ bufferFiniteInRange (generateHeightmap 1 1 defaultOptions)
      ((defaultOptions.amplitude : ℚ) : ℝ) := by
  intro hcl
  obtain ⟨q, hq, -, -⟩ := hcl none
    (by rw [generateHeightmap_unit_eq_none]; exact List.mem_singleton.2 rfl)
  exact Option.noConfusion hq

set_option maxRecDepth 100000 in
theorem generateHeightmap_range_witness :
    (1 ≤ 2 ∧ 1 ≤ 1 ∧ -1000 ≤ defaultOptions.seed ∧ defaultOptions.seed ≤ 1000 ∧
      1 ≤ defaultOptions.octaves ∧ defaultOptions.octaves ≤ 8 ∧
      0 < defaultOptions.amplitude ∧ 0 < defaultOptions.persistence ∧
      0 ≤ defaultOptions.redistribution ∧
      gridMax (rawGrid 2 1 defaultOptions) ≠ gridMin (rawGrid 2 1 defaultOptions)) ∧
    ∀ v ∈ generateHeightmap 2 1 defaultOptions,
      ∃ q : ℝ, v = some q ∧ 0 ≤ q ∧ q ≤ ((defaultOptions.amplitude : ℚ) : ℝ) :=
  ⟨⟨by norm_num, by norm_num, by norm_num [defaultOptions], by norm_num [defaultOptions],
    by norm_num [defaultOptions], by norm_num [defaultOptions], by norm_num [defaultOptions],
    by norm_num [defaultOptions], by norm_num [defaultOptions],
    by with_unfolding_all decide⟩,
   generateHeightmap_range 2 1 defaultOptions (by norm_num) (by norm_num)
    (by norm_num [defaultOptions]) (by norm_num [defaultOptions])
    (by norm_num [defaultOptions]) (by norm_num [defaultOptions])
    (by norm_num [defaultOptions]) (by norm_num [defaultOptions])
    (by norm_num [defaultOptions]) (by with_unfolding_all decide)⟩

/-- C2: contrary to the spec's guard, `generateHeightmap` has no
max==min guard: at width = height = 1 with default options the
accumulation pass yields observed max = observed min, and the returned
heightmap is `[NaN]` (a non-finite entry), not the uniformly-zero
buffer the claim describes. -/
theorem generateHeightmap_degenerate_nan :
    gridMax (rawGrid 1 1 defaultOptions) = gridMin (rawGrid 1 1 defaultOptions) ∧
    generateHeightmap 1 1 defaultOptions = [none] := by
  constructor
  · rw [rawGrid_unit_eq]
    with_unfolding_all decide
  · exact generateHeightmap_unit_eq_none
